import Mathlib

/-!
Shallow embedding of the function-boundary extraction engine of
`src/src/library/sgp/sgp_parser.py`.

Python strings are modelled as `String` / `List Char` (Python `len` counts
code points, as does `List.length` on `String.data`).  Python exceptions
(`StopIteration` from a `next(...)` with no default, `UnboundLocalError`,
`IndexError`) are modelled by `Option`: a scanner returns `none` exactly when
the Python function raises, and `some records` when it returns normally.

The `re.finditer` calls are abstracted: each scanner takes the list of match
objects (start offset, end offset, and the captured identifier where the
source uses a capture group) as an explicit argument.  Everything after the
match iteration is translated statement by statement from the source.
-/

namespace SgpParser

/-- The opening curly delimiter character. -/
def lbrace : Char := '\x7b'

/-- The closing curly delimiter character. -/
def rbrace : Char := '\x7d'

/-- Python substring test `needle in hay`, over character lists. -/
def containsSub (needle : List Char) : List Char → Bool
  | [] => needle.isEmpty
  | c :: t => needle.isPrefixOf (c :: t) || containsSub needle t

/-- Python's default whitespace set for `str.strip` / `str.lstrip`
(ASCII part; the scanners are only ever run on decoded source text). -/
def pyIsSpace (c : Char) : Bool :=
  c == ' ' || c == '\t' || c == '\n' || c == '\r' || c == '\x0b' || c == '\x0c'

/-- Python `s.strip()`. -/
def stripChars (l : List Char) : List Char :=
  ((l.dropWhile pyIsSpace).reverse.dropWhile pyIsSpace).reverse

/-- Python `len(line) - len(line.lstrip())`: the leading-whitespace width. -/
def lstripLen (line : List Char) : Nat :=
  line.length - (line.dropWhile pyIsSpace).length

/-- Python `text.split(sep)` for a one-character separator. -/
def splitOnCh (sep : Char) : List Char → List (List Char)
  | [] => [[]]
  | c :: cs =>
    if c = sep then [] :: splitOnCh sep cs
    else
      match splitOnCh sep cs with
      | [] => [[c]]
      | l :: ls => (c :: l) :: ls

/-- `lines = text.split('\n')` (line 115 and its copies). -/
def pyLines (chars : List Char) : List (List Char) := splitOnCh '\n' chars

/-- `line_starts[i] = sum(len(line) + 1 for line in lines[:i])` (line 116). -/
def lineStart (lines : List (List Char)) (i : Nat) : Nat :=
  ((lines.take i).map (fun l => l.length + 1)).sum

/-- `next(x for x in range(i, i + fuel) if p x)`, with `none` for the
`StopIteration` a defaultless `next` raises. -/
def nextIdx (p : Nat → Bool) : Nat → Nat → Option Nat
  | 0, _ => none
  | fuel + 1, i => if p i then some i else nextIdx p fuel (i + 1)

/-- `next(i for i, pos in line_starts.items() if pos > off)` (lines 141, 211,
230, 268, 282, 319, 405, 418); dict iteration is in insertion order 0..n-1. -/
def findLine (lines : List (List Char)) (off : Nat) : Option Nat :=
  nextIdx (fun i => decide (off < lineStart lines i)) lines.length 0

/-- The same lookup with the default `len(lines)` (only line 155 has it). -/
def findLineD (lines : List (List Char)) (off : Nat) : Nat :=
  (findLine lines off).getD lines.length

/-- Python slice `text[a:b]` (for `0 ≤ a ≤ b`). -/
def slice (chars : List Char) (a b : Nat) : List Char := (chars.drop a).take (b - a)

/-- The brace-depth loop `for i in range(matchEnd, len(text))` shared by all
brace scanners: `cs` is `text[i:]`, `cnt` the running `brace_count`; the
result is the index of the closing brace that takes the count to 0 (the
source then sets `function_body_end = i + 1`), or `none` when the loop runs
off the end of the text without the count reaching 0. -/
def findClose : List Char → Nat → Nat → Option Nat
  | [], _, _ => none
  | c :: cs, i, cnt =>
    if c = lbrace then findClose cs (i + 1) (cnt + 1)
    else if c = rbrace then
      (if cnt = 1 then some i else findClose cs (i + 1) (cnt - 1))
    else findClose cs (i + 1) cnt

/-- Python `"\n".join(...)`. -/
def joinNl : List (List Char) → List Char
  | [] => []
  | [x] => x
  | x :: y :: ys => x ++ '\n' :: joinNl (y :: ys)

/-- Python `s.replace(pat, rep)` (all non-overlapping occurrences, left to
right), with fuel for termination; the initial fuel is `s.length`. -/
def replaceAllF (pat rep : List Char) : Nat → List Char → List Char
  | 0, s => s
  | _ + 1, [] => []
  | fuel + 1, c :: t =>
    if !pat.isEmpty && pat.isPrefixOf (c :: t) then
      rep ++ replaceAllF pat rep fuel ((c :: t).drop pat.length)
    else c :: replaceAllF pat rep fuel t

/-- Python `s.replace(pat, rep)`. -/
def replaceAll (s pat rep : List Char) : List Char := replaceAllF pat rep s.length s

/-- `filename.replace(ext, tag + str(hash))` as used for `contract_name`. -/
def contractName (filename ext tag : String) (hash : Int) : String :=
  String.mk (replaceAll filename.data ext.data (tag ++ toString hash).data)

/-- The function-record dictionary every scanner emits.  `header` is the
extra key only `find_move_functions` adds (line 246); it is `none` for the
other scanners.  `stateMutability` and `returnParameters` are always `None`
in the source, modelled as `Option String`. -/
structure FunctionRecord where
  type : String
  name : String
  start_line : Nat
  end_line : Nat
  offset_start : Nat
  offset_end : Nat
  content : String
  header : Option String
  contract_name : String
  contract_code : String
  modifiers : List String
  stateMutability : Option String
  returnParameters : Option String
  visibility : String
  node_count : Nat
deriving Repr, DecidableEq

/-- A match of the Rust/Cairo head regex (line 108 and line 372 are the same
pattern).  `start`/`stop` are `match.start()`/`match.end()`; group 1 is the
whole match, recovered as `slice text.data start stop`.  `fnName` abstracts
the capture of the secondary search `\bfn\s+(\w+)` on group 1 (lines 162,
424). -/
structure RustMatch where
  start : Nat
  stop : Nat
  fnName : String
deriving Repr, DecidableEq

/-- A match of the Go head regex `func\s+.*\{` (line 259): no groups. -/
structure GoMatch where
  start : Nat
  stop : Nat
deriving Repr, DecidableEq

/-- A match of the Python head regex (line 306); `fnName` is group 1. -/
structure PyMatch where
  start : Nat
  stop : Nat
  fnName : String
deriving Repr, DecidableEq

/-- A match of the Move head regex (line 181); group 1 is the whole match,
`fnName` is group 2 (the function identifier). -/
structure MoveMatch where
  start : Nat
  stop : Nat
  fnName : String
deriving Repr, DecidableEq

/-! ## find_rust_functions (lines 107-178) -/

/-- First loop (lines 119-134): collect the bodies of the matches whose brace
scan terminates; an unterminated match contributes nothing. -/
def rustBodies (chars : List Char) : List RustMatch → List (List Char)
  | [] => []
  | m :: ms =>
    match findClose (chars.drop m.stop) m.stop 1 with
    | some j => slice chars m.start (j + 1) :: rustBodies chars ms
    | none => rustBodies chars ms

/-- One iteration of the second loop (lines 140-176).  Outer `none` models
the `StopIteration` of the defaultless start-line lookup (line 141);
`some none` is a silently dropped unterminated match; `some (some r)` is an
appended record.  The end-line lookup (line 155) is the one lookup in the
file with a default. -/
def rustRecord (text filename : String) (hash : Int) (ccode : List Char)
    (m : RustMatch) : Option (Option FunctionRecord) :=
  match findLine (pyLines text.data) m.start with
  | none => none
  | some k =>
    match findClose (text.data.drop m.stop) m.stop 1 with
    | none => some none
    | some j =>
      some (some
        { type := "FunctionDefinition"
          name := "special_" ++ m.fnName
          start_line := (k - 1) + 1
          end_line := findLineD (pyLines text.data) (j + 1) - 1
          offset_start := 0
          offset_end := 0
          content := String.mk (slice text.data m.start (j + 1))
          header := none
          contract_name := contractName filename ".rs" "_rust" hash
          contract_code := String.mk ccode
          modifiers := []
          stateMutability := none
          returnParameters := none
          visibility :=
            if containsSub "pub".data (slice text.data m.start m.stop)
            then "public" else "private"
          node_count := (slice text.data m.start (j + 1)).count '\n' + 1 })

/-- The second loop over all matches; a raise aborts the whole call. -/
def rustLoop (text filename : String) (hash : Int) (ccode : List Char) :
    List RustMatch → Option (List FunctionRecord)
  | [] => some []
  | m :: ms =>
    match rustRecord text filename hash ccode m with
    | none => none
    | some none => rustLoop text filename hash ccode ms
    | some (some r) => (rustLoop text filename hash ccode ms).map (fun rs => r :: rs)

/-- `find_rust_functions(text, filename, hash)` with the regex matches given
explicitly.  `contract_code` is `"\n".join(function_bodies).strip()`
(line 137). -/
def find_rust_functions (text filename : String) (hash : Int)
    (ms : List RustMatch) : Option (List FunctionRecord) :=
  rustLoop text filename hash (stripChars (joinNl (rustBodies text.data ms))) ms

/-! ## find_cairo_functions (lines 371-440): same head pattern and algorithm
as Rust, but: the record's `contract_code` is the empty string (line 431),
`visibility` is always "public" (line 421), the contract tag is `_cairo`,
and the end-line lookup (line 418) has no default, so it can raise. -/

/-- One iteration of the Cairo record loop (lines 404-438). -/
def cairoRecord (text filename : String) (hash : Int) (m : RustMatch) :
    Option (Option FunctionRecord) :=
  match findLine (pyLines text.data) m.start with
  | none => none
  | some k =>
    match findClose (text.data.drop m.stop) m.stop 1 with
    | none => some none
    | some j =>
      match findLine (pyLines text.data) (j + 1) with
      | none => none
      | some d =>
        some (some
          { type := "FunctionDefinition"
            name := "special_" ++ m.fnName
            start_line := (k - 1) + 1
            end_line := d - 1
            offset_start := 0
            offset_end := 0
            content := String.mk (slice text.data m.start (j + 1))
            header := none
            contract_name := contractName filename ".cairo" "_cairo" hash
            contract_code := ""
            modifiers := []
            stateMutability := none
            returnParameters := none
            visibility := "public"
            node_count := (slice text.data m.start (j + 1)).count '\n' + 1 })

/-- The Cairo record loop over all matches. -/
def cairoLoop (text filename : String) (hash : Int) :
    List RustMatch → Option (List FunctionRecord)
  | [] => some []
  | m :: ms =>
    match cairoRecord text filename hash m with
    | none => none
    | some none => cairoLoop text filename hash ms
    | some (some r) => (cairoLoop text filename hash ms).map (fun rs => r :: rs)

/-- `find_cairo_functions(text, filename, hash)`.  The first loop's
`contract_code` (lines 383-401) is computed by the source but never stored
in a record (the field is set to `""`), so it is not modelled. -/
def find_cairo_functions (text filename : String) (hash : Int)
    (ms : List RustMatch) : Option (List FunctionRecord) :=
  cairoLoop text filename hash ms

/-! ## find_go_functions (lines 258-303) -/

/-- `function_body_end` for a Go match: pre-initialized to `match.start()`
(line 272) and only overwritten when the depth scan terminates. -/
def goBodyEnd (chars : List Char) (m : GoMatch) : Nat :=
  match findClose (chars.drop m.stop) m.stop 1 with
  | some j => j + 1
  | none => m.start

/-- One iteration of the Go loop (lines 266-301).  An unterminated match is
NOT dropped: the record is emitted with the empty slice as content.  Both
line lookups (lines 268 and 282) are defaultless and can raise. -/
def goRecord (text filename : String) (hash : Int) (m : GoMatch) :
    Option FunctionRecord :=
  match findLine (pyLines text.data) m.start with
  | none => none
  | some k =>
    match findLine (pyLines text.data) (goBodyEnd text.data m) with
    | none => none
    | some d =>
      some
        { type := "FunctionDefinition"
          name := "special_func"
          start_line := (k - 1) + 1
          end_line := d - 1
          offset_start := 0
          offset_end := 0
          content := String.mk (slice text.data m.start (goBodyEnd text.data m))
          header := none
          contract_name := contractName filename ".go" "_go" hash
          contract_code := text
          modifiers := []
          stateMutability := none
          returnParameters := none
          visibility := "public"
          node_count := (slice text.data m.start (goBodyEnd text.data m)).count '\n' + 1 }

/-- The Go loop over all matches. -/
def goLoop (text filename : String) (hash : Int) :
    List GoMatch → Option (List FunctionRecord)
  | [] => some []
  | m :: ms =>
    match goRecord text filename hash m with
    | none => none
    | some r => (goLoop text filename hash ms).map (fun rs => r :: rs)

/-- `find_go_functions(text, filename, hash)`; `contract_code` is the whole
text (line 295). -/
def find_go_functions (text filename : String) (hash : Int)
    (ms : List GoMatch) : Option (List FunctionRecord) :=
  goLoop text filename hash ms

/-! ## find_python_functions (lines 304-370) -/

/-- The body-end `while` loop (lines 323-328): starting at line index `j`
(with `ls = lines[j:]`), advance past lines that are blank or indented more
than `indent`; returns the final value of `end_line_number` before the
`-= 1` of line 329. -/
def pyScanEndAux (indent : Nat) : List (List Char) → Nat → Nat
  | [], j => j
  | line :: rest, j =>
    if (stripChars line).isEmpty = false ∧ lstripLen line ≤ indent then j
    else pyScanEndAux indent rest (j + 1)

/-- `end_line_number` after lines 323-329: run the `while` loop from
`start_line_number + 1`, then subtract one. -/
def pyEndLineNumber (lines : List (List Char)) (startLineNumber indent : Nat) : Nat :=
  pyScanEndAux indent (lines.drop (startLineNumber + 1)) (startLineNumber + 1) - 1

/-- `function_body = '\n'.join(lines[start_line_number:end_line_number+1])`
(line 332). -/
def pyBody (lines : List (List Char)) (startLineNumber endLineNumber : Nat) : List Char :=
  joinNl ((lines.drop startLineNumber).take (endLineNumber + 1 - startLineNumber))

/-- One iteration of the Python match loop (lines 318-350).  `lines.get?`
models the `lines[start_line_number]` index (line 320), which cannot in fact
be out of range when the line lookup succeeded. -/
def pyRecord (text filename : String) (hash : Int) (m : PyMatch) :
    Option FunctionRecord :=
  match findLine (pyLines text.data) m.start with
  | none => none
  | some k =>
    match (pyLines text.data).get? (k - 1) with
    | none => none
    | some startLine =>
      some
        { type := "FunctionDefinition"
          name := "function" ++ m.fnName
          start_line := (k - 1) + 1
          end_line := pyEndLineNumber (pyLines text.data) (k - 1) (lstripLen startLine) + 1
          offset_start := 0
          offset_end := 0
          content := String.mk (pyBody (pyLines text.data) (k - 1)
            (pyEndLineNumber (pyLines text.data) (k - 1) (lstripLen startLine)))
          header := none
          contract_name := contractName filename ".py" "_python" hash
          contract_code := String.mk (stripChars text.data)
          modifiers := []
          stateMutability := none
          returnParameters := none
          visibility := "public"
          node_count := (pyBody (pyLines text.data) (k - 1)
            (pyEndLineNumber (pyLines text.data) (k - 1) (lstripLen startLine))).count '\n' + 1 }

/-- The Python match loop over a list of matches. -/
def pyLoop (text filename : String) (hash : Int) :
    List PyMatch → Option (List FunctionRecord)
  | [] => some []
  | m :: ms =>
    match pyRecord text filename hash m with
    | none => none
    | some r => (pyLoop text filename hash ms).map (fun rs => r :: rs)

/-- The fallback whole-file record of the `else` branch (lines 351-368). -/
def pyFallback (text filename : String) (hash : Int) : FunctionRecord :=
  { type := "FunctionDefinition"
    name := "function" ++ String.mk ((splitOnCh '.' filename.data).headD []) ++ "all"
    start_line := 1
    end_line := (pyLines text.data).length
    offset_start := 0
    offset_end := 0
    content := String.mk (stripChars text.data)
    header := none
    contract_name := contractName filename ".py" "_python" hash
    contract_code := String.mk (stripChars text.data)
    modifiers := []
    stateMutability := none
    returnParameters := none
    visibility := "public"
    node_count := (pyLines text.data).length }

/-- `find_python_functions(text, filename, hash_value)`.  Line 317's
`if any(matches)` consumes the first element of the `finditer` iterator: when
there is at least one match, the `for match in matches` loop of line 318 only
sees the remaining matches.  This translation preserves that behaviour. -/
def find_python_functions (text filename : String) (hash : Int)
    (ms : List PyMatch) : Option (List FunctionRecord) :=
  match ms with
  | [] => some [pyFallback text filename hash]
  | _ :: rest => pyLoop text filename hash rest

/-! ## find_move_functions (lines 179-256) -/

/-- First loop (lines 188-206): collect group 1 for declaration-only matches
and the scanned body for braced matches; unterminated braced matches
contribute nothing. -/
def moveBodies (chars : List Char) : List MoveMatch → List (List Char)
  | [] => []
  | m :: ms =>
    if (stripChars (slice chars m.start m.stop)).getLast? = some ';' then
      slice chars m.start m.stop :: moveBodies chars ms
    else
      match findClose (chars.drop m.stop) m.stop 1 with
      | some j => slice chars m.start (j + 1) :: moveBodies chars ms
      | none => moveBodies chars ms

/-- The values of the locals `function_body`, `end_line_number`,
`function_body_lines` after one iteration's `if`/`else` (lines 213-233).
In Python these three locals persist across iterations of the
`for match in ...` loop; when a braced match's depth scan does not
terminate, none of them is assigned and the record of line 238 is built
from the previous iteration's values (or raises `UnboundLocalError` on the
first match). -/
structure MoveVals where
  body : List Char
  endLine : Nat
  bodyLines : Nat
deriving Repr, DecidableEq

/-- One iteration's update of the three locals; `prev` is their state from
earlier iterations.  Outer `none` models a raise (the end-line lookup of
line 230 is defaultless); `some none` means the locals are still unbound. -/
def moveVals (chars : List Char) (lines : List (List Char)) (k : Nat)
    (prev : Option MoveVals) (m : MoveMatch) : Option (Option MoveVals) :=
  if (stripChars (slice chars m.start m.stop)).getLast? = some ';' then
    some (some ⟨slice chars m.start m.stop, k - 1, 1⟩)
  else
    match findClose (chars.drop m.stop) m.stop 1 with
    | some j =>
      match findLine lines (j + 1) with
      | none => none
      | some d =>
        some (some ⟨slice chars m.start (j + 1), d - 1,
          (slice chars m.start (j + 1)).count '\n' + 1⟩)
    | none => some prev

/-- The record appended at line 238, built from the current locals `v`. -/
def moveRecordOf (text filename : String) (hash : Int) (ccode : List Char)
    (m : MoveMatch) (k : Nat) (v : MoveVals) : FunctionRecord :=
  { type := "FunctionDefinition"
    name := "special_" ++ m.fnName
    start_line := (k - 1) + 1
    end_line := v.endLine
    offset_start := 0
    offset_end := 0
    content := String.mk v.body
    header := some (String.mk (stripChars (slice text.data m.start m.stop)))
    contract_name := contractName filename ".move" "_move" hash
    contract_code := String.mk ccode
    modifiers :=
      if containsSub "native".data (slice text.data m.start m.stop)
      then ["native"] else []
    stateMutability := none
    returnParameters := none
    visibility :=
      if containsSub "public".data (slice text.data m.start m.stop)
      then "public" else "private"
    node_count := v.bodyLines }

/-- The second loop (lines 210-254), threading the persistent locals. -/
def moveLoop (text filename : String) (hash : Int) (ccode : List Char)
    (prev : Option MoveVals) : List MoveMatch → Option (List FunctionRecord)
  | [] => some []
  | m :: ms =>
    match findLine (pyLines text.data) m.start with
    | none => none
    | some k =>
      match moveVals text.data (pyLines text.data) k prev m with
      | none => none
      | some none => none
      | some (some v) =>
        (moveLoop text filename hash ccode (some v) ms).map
          (fun rs => moveRecordOf text filename hash ccode m k v :: rs)

/-- `find_move_functions(text, filename, hash)`. -/
def find_move_functions (text filename : String) (hash : Int)
    (ms : List MoveMatch) : Option (List FunctionRecord) :=
  moveLoop text filename hash (stripChars (joinNl (moveBodies text.data ms)))
    none ms

/-! ## get_antlr_parsing dispatch (lines 442-469) -/

/-- Where the dispatcher routes a path (`go` is a possible target type but no
branch of the source produces it). -/
inductive DispatchTarget where
  | rust
  | python
  | move
  | cairo
  | go
  | antlr
deriving Repr, DecidableEq

/-- The extension dispatch of `get_antlr_parsing` (lines 447-459): substring
containment checks in source order; every path matching none of the four
goes to the ANTLR Solidity path.  There is no `.go` branch. -/
def get_antlr_parsing_dispatch (path : String) : DispatchTarget :=
  if containsSub ".rs".data path.data then DispatchTarget.rust
  else if containsSub ".py".data path.data then DispatchTarget.python
  else if containsSub ".move".data path.data then DispatchTarget.move
  else if containsSub ".cairo".data path.data then DispatchTarget.cairo
  else DispatchTarget.antlr

/-! ## parse / ParserError (lines 18-105)

Modelled from the spec: the class `SGPErrorListener`
(`sgp_error_listener.py` is not part of the staged sources) accumulates the
syntax errors reported during lexing/parsing; `has_errors()` is nonemptiness
of that list and `get_errors()` returns it.  An error carries
`message`, `line`, `column`.  The tail of `parse` (lines 84-88) and
`ParserError.__init__` (lines 23-32) are translated from the source. -/

/-- One listener error: `{message, line, column}`. -/
structure SGPError where
  message : String
  line : Nat
  column : Nat
deriving Repr, DecidableEq

/-- `f"{error['message']} ({error['line']}:{error['column']})"` (line 31). -/
def parserErrorMessage (e : SGPError) : String :=
  e.message ++ " (" ++ toString e.line ++ ":" ++ toString e.column ++ ")"

/-- The data a raised `ParserError` carries (lines 29-32). -/
structure ParserErrorData where
  message : String
  errors : List SGPError
deriving Repr, DecidableEq

/-- The AST root as far as the error contract is concerned: its `errors`
attribute, set only on the tolerant path (line 88). -/
structure SourceUnitModel where
  errors : Option (List SGPError)
deriving Repr, DecidableEq

/-- Outcome of `parse` after the AST was built: normal return or a raised
`ParserError`. -/
inductive ParseOutcome where
  | ok (unit : SourceUnitModel)
  | raised (err : ParserErrorData)
deriving Repr, DecidableEq

/-- Lines 84-88 of `parse`: raise when not tolerant and the listener has
errors (the `ParserError` message is built from the first error); attach the
error list to the root when tolerant and the listener has errors; otherwise
return the root unchanged. -/
def parseFinish : Bool → List SGPError → SourceUnitModel → ParseOutcome
  | _, [], u => ParseOutcome.ok u
  | false, e :: rest, _ =>
    ParseOutcome.raised { message := parserErrorMessage e, errors := e :: rest }
  | true, e :: rest, u => ParseOutcome.ok { u with errors := some (e :: rest) }

/-! ## Properties used by the claims -/

/-- The content has as many opening as closing braces. -/
def bracesBalanced (s : String) : Prop :=
  s.data.count lbrace = s.data.count rbrace

/-- The running delimiter depth after the first `k` characters. -/
def depthAt (cs : List Char) (k : Nat) : Int :=
  ((cs.take k).count lbrace : Int) - ((cs.take k).count rbrace : Int)

/-- The running depth over the content returns to zero only at the very end:
it is zero after the full content, and every proper prefix that already
contains an opening brace has nonzero depth. -/
def depthZeroOnce (s : String) : Prop :=
  depthAt s.data s.data.length = 0 ∧
    ∀ k, k < s.data.length → lbrace ∈ s.data.take k → depthAt s.data k ≠ 0

instance (s : String) : Decidable (bracesBalanced s) := by
  unfold bracesBalanced; infer_instance

instance (s : String) : Decidable (depthZeroOnce s) := by
  unfold depthZeroOnce; exact instDecidableAnd

/-- A head slice suitable for depth scanning with an initial count of 1:
exactly one opening brace (the one the regex consumed) and no closing
brace. -/
def headOneBrace (chars : List Char) (a b : Nat) : Prop :=
  (slice chars a b).count lbrace = 1 ∧ (slice chars a b).count rbrace = 0

/-- A brace-free head slice (a declaration-only Move head). -/
def headNoBrace (chars : List Char) (a b : Nat) : Prop :=
  (slice chars a b).count lbrace = 0 ∧ (slice chars a b).count rbrace = 0

/-- A Move match whose iteration assigns the three locals: declaration-only,
or the depth scan terminates. -/
def moveResolves (chars : List Char) (m : MoveMatch) : Prop :=
  (stripChars (slice chars m.start m.stop)).getLast? = some ';' ∨
    (findClose (chars.drop m.stop) m.stop 1).isSome = true

instance (chars : List Char) (a b : Nat) : Decidable (headOneBrace chars a b) := by
  unfold headOneBrace; infer_instance

instance (chars : List Char) (a b : Nat) : Decidable (headNoBrace chars a b) := by
  unfold headNoBrace; infer_instance

instance (chars : List Char) (m : MoveMatch) : Decidable (moveResolves chars m) := by
  unfold moveResolves; infer_instance

/-- The running count of `depthList` starting from `cnt`, over a scanned
segment. -/
def depthList (cnt : Nat) (t : List Char) : Int :=
  (cnt : Int) + t.count lbrace - t.count rbrace

/-- The record `find_rust_functions` emits for the text `"fn a() {}\n"`
(head match at offsets 0..8, function name `a`, hash 0); used by the
concrete instantiations below. -/
def rustSampleRecord : FunctionRecord :=
  { type := "FunctionDefinition"
    name := "special_a"
    start_line := 1
    end_line := 0
    offset_start := 0
    offset_end := 0
    content := "fn a() \x7b\x7d"
    header := none
    contract_name := "f_rust0"
    contract_code := "fn a() \x7b\x7d"
    modifiers := []
    stateMutability := none
    returnParameters := none
    visibility := "private"
    node_count := 1 }

/-! ## Lemmas about the line-number lookup -/

theorem lineStart_zero (lines : List (List Char)) : lineStart lines 0 = 0 := by
  simp [lineStart]

theorem nextIdx_some {p : Nat → Bool} :
    ∀ {fuel i k : Nat}, nextIdx p fuel i = some k →
      i ≤ k ∧ p k = true ∧ k < i + fuel ∧ ∀ j, i ≤ j → j < k → p j = false := by
  intro fuel
  induction fuel with
  | zero => intro i k h; exact absurd h (by simp [nextIdx])
  | succ f ih =>
    intro i k h
    rw [nextIdx] at h
    split at h
    · cases h
      exact ⟨Nat.le_refl _, by assumption, by omega, fun j hj1 hj2 => by omega⟩
    · obtain ⟨h1, h2, h3, h4⟩ := ih h
      refine ⟨by omega, h2, by omega, fun j hj1 hj2 => ?_⟩
      rcases Nat.lt_or_ge i j with hlt | hge
      · exact h4 j hlt hj2
      · have hji : j = i := by omega
        subst hji
        simp only [Bool.not_eq_true] at *
        assumption

theorem findLine_spec {lines : List (List Char)} {off k : Nat}
    (h : findLine lines off = some k) :
    1 ≤ k ∧ k ≤ lines.length ∧ off < lineStart lines k ∧
      ∀ j, j < k → ¬ off < lineStart lines j := by
  obtain ⟨h1, h2, h3, h4⟩ := nextIdx_some h
  have hoff : off < lineStart lines k := of_decide_eq_true h2
  have hk1 : 1 ≤ k := by
    rcases Nat.eq_zero_or_pos k with rfl | hpos
    · rw [lineStart_zero] at hoff
      omega
    · exact hpos
  exact ⟨hk1, by omega, hoff,
    fun j hj => of_decide_eq_false (h4 j (Nat.zero_le _) hj)⟩

theorem findLine_mono {lines : List (List Char)} {a b k : Nat}
    (ha : findLine lines a = some k) (hab : a ≤ b) : k ≤ findLineD lines b := by
  unfold findLineD
  cases hb : findLine lines b with
  | none =>
    obtain ⟨-, hk, -, -⟩ := findLine_spec ha
    simpa using hk
  | some d =>
    obtain ⟨-, -, hd, -⟩ := findLine_spec hb
    obtain ⟨-, -, -, hmin⟩ := findLine_spec ha
    simp only [Option.getD_some]
    by_contra hcon
    exact hmin d (by omega) (by omega)

theorem findLine_mono_some {lines : List (List Char)} {a b k d : Nat}
    (ha : findLine lines a = some k) (hab : a ≤ b)
    (hb : findLine lines b = some d) : k ≤ d := by
  have := findLine_mono ha hab
  rwa [findLineD, hb, Option.getD_some] at this

/-! ## Lemmas about the brace-depth scan -/

theorem findClose_ge :
    ∀ {cs : List Char} {i cnt j : Nat}, findClose cs i cnt = some j → i ≤ j := by
  intro cs
  induction cs with
  | nil => intro i cnt j h; exact absurd h (by simp [findClose])
  | cons c t ih =>
    intro i cnt j h
    rw [findClose] at h
    split_ifs at h with hc1 hc2 hc3
    · exact Nat.le_of_succ_le (ih h)
    · cases h; exact Nat.le_refl _
    · exact Nat.le_of_succ_le (ih h)
    · exact Nat.le_of_succ_le (ih h)

theorem lbrace_ne_rbrace : lbrace ≠ rbrace := by decide

theorem findClose_spec :
    ∀ {cs : List Char} {i cnt j : Nat}, 0 < cnt → findClose cs i cnt = some j →
      ∃ t rest, cs = t ++ rest ∧ t.length = j + 1 - i ∧ depthList cnt t = 0 ∧
        ∀ q, q <+: t → q.length < t.length → 0 < depthList cnt q := by
  intro cs
  induction cs with
  | nil => intro i cnt j _ h; exact absurd h (by simp [findClose])
  | cons c t ih =>
    intro i cnt j hcnt h
    rw [findClose] at h
    split_ifs at h with hc1 hc2 hc3
    · -- c = lbrace: recurse with count + 1
      obtain ⟨t', rest, hsplit, hlen, hdep, hpref⟩ := ih (by omega) h
      have hij : i + 1 ≤ j := findClose_ge h
      refine ⟨c :: t', rest, by rw [hsplit, List.cons_append], by simp [hlen]; omega, ?_, ?_⟩
      · subst hc1
        simp only [depthList, List.count_cons_self,
          List.count_cons_of_ne (lbrace_ne_rbrace.symm)] at hdep ⊢
        push_cast at hdep ⊢
        omega
      · intro q hq hqlen
        cases q with
        | nil =>
          simp only [depthList, List.count_nil]
          push_cast
          omega
        | cons c0 q' =>
          obtain ⟨u, hu⟩ := hq
          injection hu with hc0 hu'
          subst hc0
          have := hpref q' ⟨u, hu'⟩ (by simpa using hqlen)
          subst hc1
          simp only [depthList, List.count_cons_self,
            List.count_cons_of_ne (lbrace_ne_rbrace.symm)] at this ⊢
          push_cast at this ⊢
          omega
    · -- c = rbrace, count = 1: found
      cases h
      refine ⟨[c], t, rfl, by simp only [List.length_singleton]; omega, ?_, ?_⟩
      · subst hc2 hc3
        simp [depthList, List.count_cons_self, List.count_cons_of_ne lbrace_ne_rbrace]
      · intro q hq hqlen
        have hq0 : q = [] := by
          cases q with
          | nil => rfl
          | cons a b => simp at hqlen
        subst hq0
        simp only [depthList, List.count_nil]
        push_cast
        omega
    · -- c = rbrace, count ≠ 1: recurse with count - 1
      have hcnt2 : 2 ≤ cnt := by omega
      obtain ⟨t', rest, hsplit, hlen, hdep, hpref⟩ := ih (by omega) h
      have hij : i + 1 ≤ j := findClose_ge h
      refine ⟨c :: t', rest, by rw [hsplit, List.cons_append], by simp [hlen]; omega, ?_, ?_⟩
      · subst hc2
        simp only [depthList, List.count_cons_self,
          List.count_cons_of_ne lbrace_ne_rbrace] at hdep ⊢
        push_cast [Nat.cast_sub (by omega : 1 ≤ cnt)] at hdep ⊢
        omega
      · intro q hq hqlen
        cases q with
        | nil =>
          simp only [depthList, List.count_nil]
          push_cast
          omega
        | cons c0 q' =>
          obtain ⟨u, hu⟩ := hq
          injection hu with hc0 hu'
          subst hc0
          have := hpref q' ⟨u, hu'⟩ (by simpa using hqlen)
          subst hc2
          simp only [depthList, List.count_cons_self,
            List.count_cons_of_ne lbrace_ne_rbrace] at this ⊢
          push_cast [Nat.cast_sub (by omega : 1 ≤ cnt)] at this ⊢
          omega
    · -- other character: counts unchanged
      obtain ⟨t', rest, hsplit, hlen, hdep, hpref⟩ := ih hcnt h
      have hij : i + 1 ≤ j := findClose_ge h
      refine ⟨c :: t', rest, by rw [hsplit, List.cons_append], by simp [hlen]; omega, ?_, ?_⟩
      · simp only [depthList, List.count_cons_of_ne (Ne.symm hc1),
          List.count_cons_of_ne (Ne.symm hc2)] at hdep ⊢
        exact hdep
      · intro q hq hqlen
        cases q with
        | nil =>
          simp only [depthList, List.count_nil]
          push_cast
          omega
        | cons c0 q' =>
          obtain ⟨u, hu⟩ := hq
          injection hu with hc0 hu'
          subst hc0
          have := hpref q' ⟨u, hu'⟩ (by simpa using hqlen)
          simp only [depthList, List.count_cons_of_ne (Ne.symm hc1),
            List.count_cons_of_ne (Ne.symm hc2)] at this ⊢
          exact this

/-! ## The content of a scanned body -/

theorem slice_split {chars : List Char} {a b c : Nat} (hab : a ≤ b) (hbc : b ≤ c) :
    slice chars a c = slice chars a b ++ slice chars b c := by
  unfold slice
  rw [show c - a = (b - a) + (c - b) by omega, List.take_add, List.drop_drop,
    show a + (b - a) = b by omega]

theorem string_mk_data (l : List Char) : (String.mk l).data = l := rfl

/-- The body slice of any brace scanner, when the matched head has exactly
one opening brace and no closing brace, has balanced braces and a running
depth that returns to zero only at the final character. -/
theorem contentProps {chars : List Char} {s e j : Nat} (hse : s ≤ e)
    (h1 : (slice chars s e).count lbrace = 1)
    (h0 : (slice chars s e).count rbrace = 0)
    (hj : findClose (chars.drop e) e 1 = some j) :
    bracesBalanced (String.mk (slice chars s (j + 1))) ∧
      depthZeroOnce (String.mk (slice chars s (j + 1))) := by
  have hej : e ≤ j + 1 := by have := findClose_ge hj; omega
  obtain ⟨t, rest, hsplit, hlen, hdep, hpref⟩ := findClose_spec Nat.one_pos hj
  have htail : slice chars e (j + 1) = t := by
    unfold slice
    rw [hsplit, ← hlen, List.take_left]
  have hcontent : slice chars s (j + 1) = slice chars s e ++ t :=
    (slice_split hse hej).trans (by rw [htail])
  simp only [depthList] at hdep
  constructor
  · unfold bracesBalanced
    rw [string_mk_data, hcontent, List.count_append, List.count_append, h1, h0]
    omega
  · constructor
    · unfold depthAt
      rw [string_mk_data, List.take_length, hcontent, List.count_append,
        List.count_append, h1, h0]
      push_cast
      omega
    · intro k hk hmem
      rw [string_mk_data] at hk hmem ⊢
      rw [hcontent] at hk hmem ⊢
      unfold depthAt
      rcases le_or_lt k (slice chars s e).length with hkle | hkgt
      · have htake : ((slice chars s e) ++ t).take k = (slice chars s e).take k :=
          List.take_append_of_le_length hkle
        rw [htake] at hmem ⊢
        have hsub : ((slice chars s e).take k).Sublist (slice chars s e) :=
          List.take_sublist _ _
        have hle1 : ((slice chars s e).take k).count lbrace ≤ 1 :=
          h1 ▸ hsub.count_le lbrace
        have hle0 : ((slice chars s e).take k).count rbrace = 0 :=
          Nat.le_zero.mp (h0 ▸ hsub.count_le rbrace)
        have hpos : 0 < ((slice chars s e).take k).count lbrace :=
          Nat.pos_of_ne_zero (fun hz => (List.count_eq_zero.mp hz) hmem)
        rw [hle0]
        push_cast
        omega
      · have htake : ((slice chars s e) ++ t).take k =
            (slice chars s e) ++ t.take (k - (slice chars s e).length) := by
          rw [List.take_append_eq_append_take,
            List.take_of_length_le (Nat.le_of_lt hkgt)]
        have hklt : k - (slice chars s e).length < t.length := by
          rw [List.length_append] at hk
          omega
        have hqlen : (t.take (k - (slice chars s e).length)).length < t.length := by
          rw [List.length_take, Nat.min_eq_left (Nat.le_of_lt hklt)]
          exact hklt
        have hq := hpref (t.take (k - (slice chars s e).length))
          (List.take_prefix _ _) hqlen
        simp only [depthList] at hq
        rw [htake, List.count_append, List.count_append, h1, h0]
        push_cast at hq ⊢
        omega

/-- A brace-free content (a declaration-only head) trivially satisfies both
content properties. -/
theorem contentPropsNoBrace {l : List Char}
    (h1 : l.count lbrace = 0) (h0 : l.count rbrace = 0) :
    bracesBalanced (String.mk l) ∧ depthZeroOnce (String.mk l) := by
  refine ⟨by unfold bracesBalanced; rw [string_mk_data, h1, h0], ?_, ?_⟩
  · unfold depthAt
    rw [string_mk_data, List.take_length, h1, h0]
    simp
  · intro k hk hmem
    rw [string_mk_data] at hmem
    exact absurd (List.count_eq_zero.mp h1)
      (by simpa using ((List.take_sublist k l).subset hmem))

/-! ## Destructuring the per-match records -/

theorem rustRecord_some {text filename : String} {hash : Int} {ccode : List Char}
    {m : RustMatch} {r : FunctionRecord}
    (h : rustRecord text filename hash ccode m = some (some r)) :
    ∃ k j, findLine (pyLines text.data) m.start = some k ∧
      findClose (text.data.drop m.stop) m.stop 1 = some j ∧
      r.start_line = (k - 1) + 1 ∧
      r.end_line = findLineD (pyLines text.data) (j + 1) - 1 ∧
      r.content = String.mk (slice text.data m.start (j + 1)) := by
  unfold rustRecord at h
  cases hfl : findLine (pyLines text.data) m.start with
  | none => rw [hfl] at h; exact absurd h (by simp)
  | some k =>
    rw [hfl] at h
    cases hfc : findClose (text.data.drop m.stop) m.stop 1 with
    | none => rw [hfc] at h; exact absurd h (by simp)
    | some j =>
      rw [hfc] at h
      simp only [Option.some.injEq] at h
      exact ⟨k, j, rfl, rfl, by rw [← h], by rw [← h], by rw [← h]⟩

theorem cairoRecord_some {text filename : String} {hash : Int}
    {m : RustMatch} {r : FunctionRecord}
    (h : cairoRecord text filename hash m = some (some r)) :
    ∃ k j d, findLine (pyLines text.data) m.start = some k ∧
      findClose (text.data.drop m.stop) m.stop 1 = some j ∧
      findLine (pyLines text.data) (j + 1) = some d ∧
      r.start_line = (k - 1) + 1 ∧
      r.end_line = d - 1 ∧
      r.content = String.mk (slice text.data m.start (j + 1)) := by
  unfold cairoRecord at h
  split at h
  next => exact absurd h (by simp)
  next k hfl =>
    split at h
    next => exact absurd h (by simp)
    next j hfc =>
      split at h
      next => exact absurd h (by simp)
      next d hfe =>
        simp only [Option.some.injEq] at h
        exact ⟨k, j, d, hfl, hfc, hfe, by rw [← h], by rw [← h], by rw [← h]⟩

theorem goRecord_some {text filename : String} {hash : Int}
    {m : GoMatch} {r : FunctionRecord}
    (h : goRecord text filename hash m = some r) :
    ∃ k d, findLine (pyLines text.data) m.start = some k ∧
      findLine (pyLines text.data) (goBodyEnd text.data m) = some d ∧
      r.start_line = (k - 1) + 1 ∧
      r.end_line = d - 1 ∧
      r.content = String.mk (slice text.data m.start (goBodyEnd text.data m)) := by
  unfold goRecord at h
  cases hfl : findLine (pyLines text.data) m.start with
  | none => rw [hfl] at h; exact absurd h (by simp)
  | some k =>
    rw [hfl] at h
    cases hfe : findLine (pyLines text.data) (goBodyEnd text.data m) with
    | none => rw [hfe] at h; exact absurd h (by simp)
    | some d =>
      rw [hfe] at h
      simp only [Option.some.injEq] at h
      exact ⟨k, d, rfl, rfl, by rw [← h], by rw [← h], by rw [← h]⟩

theorem pyRecord_some {text filename : String} {hash : Int}
    {m : PyMatch} {r : FunctionRecord}
    (h : pyRecord text filename hash m = some r) :
    ∃ k startLine, findLine (pyLines text.data) m.start = some k ∧
      (pyLines text.data).get? (k - 1) = some startLine ∧
      r.start_line = (k - 1) + 1 ∧
      r.end_line = pyEndLineNumber (pyLines text.data) (k - 1) (lstripLen startLine) + 1 := by
  unfold pyRecord at h
  split at h
  next => exact absurd h (by simp)
  next k hfl =>
    split at h
    next => exact absurd h (by simp)
    next startLine hgl =>
      simp only [Option.some.injEq] at h
      exact ⟨k, startLine, hfl, hgl, by rw [← h], by rw [← h]⟩

/-! ## Loop membership lemmas -/

theorem rustLoop_mem {text filename : String} {hash : Int} {ccode : List Char} :
    ∀ {ms : List RustMatch} {rs : List FunctionRecord},
      rustLoop text filename hash ccode ms = some rs →
      ∀ r ∈ rs, ∃ m ∈ ms, rustRecord text filename hash ccode m = some (some r) := by
  intro ms
  induction ms with
  | nil =>
    intro rs h r hr
    rw [rustLoop] at h
    cases h
    exact absurd hr (by simp)
  | cons m ms ih =>
    intro rs h r hr
    rw [rustLoop] at h
    cases hrec : rustRecord text filename hash ccode m with
    | none => rw [hrec] at h; exact absurd h (by simp)
    | some o =>
      rw [hrec] at h
      cases o with
      | none =>
        obtain ⟨m', hm', hr'⟩ := ih h r hr
        exact ⟨m', List.mem_cons_of_mem _ hm', hr'⟩
      | some r0 =>
        cases hl : rustLoop text filename hash ccode ms with
        | none => rw [hl] at h; exact absurd h (by simp)
        | some rs' =>
          rw [hl] at h
          simp only [Option.map_some', Option.some.injEq] at h
          subst h
          rcases List.mem_cons.mp hr with rfl | hr'
          · exact ⟨m, List.mem_cons_self _ _, hrec⟩
          · obtain ⟨m', hm', hrm⟩ := ih hl r hr'
            exact ⟨m', List.mem_cons_of_mem _ hm', hrm⟩

theorem cairoLoop_mem {text filename : String} {hash : Int} :
    ∀ {ms : List RustMatch} {rs : List FunctionRecord},
      cairoLoop text filename hash ms = some rs →
      ∀ r ∈ rs, ∃ m ∈ ms, cairoRecord text filename hash m = some (some r) := by
  intro ms
  induction ms with
  | nil =>
    intro rs h r hr
    rw [cairoLoop] at h
    cases h
    exact absurd hr (by simp)
  | cons m ms ih =>
    intro rs h r hr
    rw [cairoLoop] at h
    cases hrec : cairoRecord text filename hash m with
    | none => rw [hrec] at h; exact absurd h (by simp)
    | some o =>
      rw [hrec] at h
      cases o with
      | none =>
        obtain ⟨m', hm', hr'⟩ := ih h r hr
        exact ⟨m', List.mem_cons_of_mem _ hm', hr'⟩
      | some r0 =>
        cases hl : cairoLoop text filename hash ms with
        | none => rw [hl] at h; exact absurd h (by simp)
        | some rs' =>
          rw [hl] at h
          simp only [Option.map_some', Option.some.injEq] at h
          subst h
          rcases List.mem_cons.mp hr with rfl | hr'
          · exact ⟨m, List.mem_cons_self _ _, hrec⟩
          · obtain ⟨m', hm', hrm⟩ := ih hl r hr'
            exact ⟨m', List.mem_cons_of_mem _ hm', hrm⟩

theorem goLoop_mem {text filename : String} {hash : Int} :
    ∀ {ms : List GoMatch} {rs : List FunctionRecord},
      goLoop text filename hash ms = some rs →
      ∀ r ∈ rs, ∃ m ∈ ms, goRecord text filename hash m = some r := by
  intro ms
  induction ms with
  | nil =>
    intro rs h r hr
    rw [goLoop] at h
    cases h
    exact absurd hr (by simp)
  | cons m ms ih =>
    intro rs h r hr
    rw [goLoop] at h
    cases hrec : goRecord text filename hash m with
    | none => rw [hrec] at h; exact absurd h (by simp)
    | some r0 =>
      rw [hrec] at h
      cases hl : goLoop text filename hash ms with
      | none => rw [hl] at h; exact absurd h (by simp)
      | some rs' =>
        rw [hl] at h
        simp only [Option.map_some', Option.some.injEq] at h
        subst h
        rcases List.mem_cons.mp hr with rfl | hr'
        · exact ⟨m, List.mem_cons_self _ _, hrec⟩
        · obtain ⟨m', hm', hrm⟩ := ih hl r hr'
          exact ⟨m', List.mem_cons_of_mem _ hm', hrm⟩

theorem pyLoop_mem {text filename : String} {hash : Int} :
    ∀ {ms : List PyMatch} {rs : List FunctionRecord},
      pyLoop text filename hash ms = some rs →
      ∀ r ∈ rs, ∃ m ∈ ms, pyRecord text filename hash m = some r := by
  intro ms
  induction ms with
  | nil =>
    intro rs h r hr
    rw [pyLoop] at h
    cases h
    exact absurd hr (by simp)
  | cons m ms ih =>
    intro rs h r hr
    rw [pyLoop] at h
    cases hrec : pyRecord text filename hash m with
    | none => rw [hrec] at h; exact absurd h (by simp)
    | some r0 =>
      rw [hrec] at h
      cases hl : pyLoop text filename hash ms with
      | none => rw [hl] at h; exact absurd h (by simp)
      | some rs' =>
        rw [hl] at h
        simp only [Option.map_some', Option.some.injEq] at h
        subst h
        rcases List.mem_cons.mp hr with rfl | hr'
        · exact ⟨m, List.mem_cons_self _ _, hrec⟩
        · obtain ⟨m', hm', hrm⟩ := ih hl r hr'
          exact ⟨m', List.mem_cons_of_mem _ hm', hrm⟩

/-! ## Move scanner lemmas -/

theorem moveVals_some {chars : List Char} {lines : List (List Char)} {k : Nat}
    {prev : Option MoveVals} {m : MoveMatch} {v : MoveVals}
    (h : moveVals chars lines k prev m = some (some v)) :
    ((stripChars (slice chars m.start m.stop)).getLast? = some ';' ∧
      v = ⟨slice chars m.start m.stop, k - 1, 1⟩) ∨
    (¬ (stripChars (slice chars m.start m.stop)).getLast? = some ';' ∧
      ∃ j d, findClose (chars.drop m.stop) m.stop 1 = some j ∧
        findLine lines (j + 1) = some d ∧
        v = ⟨slice chars m.start (j + 1), d - 1,
          (slice chars m.start (j + 1)).count '\n' + 1⟩) ∨
    (¬ (stripChars (slice chars m.start m.stop)).getLast? = some ';' ∧
      findClose (chars.drop m.stop) m.stop 1 = none ∧ prev = some v) := by
  unfold moveVals at h
  split_ifs at h with hsc
  · simp only [Option.some.injEq] at h
    exact Or.inl ⟨hsc, h.symm⟩
  · split at h
    next j hfc =>
      split at h
      next => exact absurd h (by simp)
      next d hfe =>
        simp only [Option.some.injEq] at h
        exact Or.inr (Or.inl ⟨hsc, j, d, hfc, hfe, h.symm⟩)
    next hfc =>
      simp only [Option.some.injEq] at h
      exact Or.inr (Or.inr ⟨hsc, hfc, h⟩)

theorem moveLoop_mem {text filename : String} {hash : Int} {ccode : List Char} :
    ∀ {ms : List MoveMatch} {prev : Option MoveVals} {rs : List FunctionRecord},
      moveLoop text filename hash ccode prev ms = some rs →
      ∀ r ∈ rs, ∃ m ∈ ms, ∃ k prev' v,
        findLine (pyLines text.data) m.start = some k ∧
        moveVals text.data (pyLines text.data) k prev' m = some (some v) ∧
        r = moveRecordOf text filename hash ccode m k v := by
  intro ms
  induction ms with
  | nil =>
    intro prev rs h r hr
    rw [moveLoop] at h
    cases h
    exact absurd hr (by simp)
  | cons m ms ih =>
    intro prev rs h r hr
    rw [moveLoop] at h
    split at h
    next => exact absurd h (by simp)
    next k hfl =>
      split at h
      next => exact absurd h (by simp)
      next => exact absurd h (by simp)
      next v hmv =>
        cases hl : moveLoop text filename hash ccode (some v) ms with
        | none => rw [hl] at h; exact absurd h (by simp)
        | some rs' =>
          rw [hl] at h
          simp only [Option.map_some', Option.some.injEq] at h
          subst h
          rcases List.mem_cons.mp hr with rfl | hr'
          · exact ⟨m, List.mem_cons_self _ _, k, prev, v, hfl, hmv, rfl⟩
          · obtain ⟨m', hm', rest⟩ := ih hl r hr'
            exact ⟨m', List.mem_cons_of_mem _ hm', rest⟩

/-- Content well-formedness carried through the Move loop: every emitted
record's content is balanced with a single return to depth zero, provided
every head is brace-well-formed for its branch; the threaded locals preserve
the property, so even stale records satisfy it. -/
theorem moveLoop_contentOk {text filename : String} {hash : Int} {ccode : List Char} :
    ∀ {ms : List MoveMatch} {prev : Option MoveVals} {rs : List FunctionRecord},
      (∀ m ∈ ms, m.start ≤ m.stop ∧
        ((stripChars (slice text.data m.start m.stop)).getLast? = some ';' →
          headNoBrace text.data m.start m.stop) ∧
        (¬ (stripChars (slice text.data m.start m.stop)).getLast? = some ';' →
          headOneBrace text.data m.start m.stop)) →
      (∀ v, prev = some v →
        bracesBalanced (String.mk v.body) ∧ depthZeroOnce (String.mk v.body)) →
      moveLoop text filename hash ccode prev ms = some rs →
      ∀ r ∈ rs, bracesBalanced r.content ∧ depthZeroOnce r.content := by
  intro ms
  induction ms with
  | nil =>
    intro prev rs _ _ h r hr
    rw [moveLoop] at h
    cases h
    exact absurd hr (by simp)
  | cons m ms ih =>
    intro prev rs hheads hprev h r hr
    rw [moveLoop] at h
    split at h
    next => exact absurd h (by simp)
    next k hfl =>
      split at h
      next => exact absurd h (by simp)
      next => exact absurd h (by simp)
      next v hmv =>
        obtain ⟨hse, hdecl, hbody⟩ := hheads m (List.mem_cons_self _ _)
        have hvOk : bracesBalanced (String.mk v.body) ∧
            depthZeroOnce (String.mk v.body) := by
          rcases moveVals_some hmv with ⟨hsc, rfl⟩ | ⟨hsc, j, d, hfc, hfe, rfl⟩ |
            ⟨hsc, hfc, hpv⟩
          · obtain ⟨hn1, hn0⟩ := hdecl hsc
            exact contentPropsNoBrace hn1 hn0
          · obtain ⟨h1, h0⟩ := hbody hsc
            exact contentProps hse h1 h0 hfc
          · exact hprev v hpv
        cases hl : moveLoop text filename hash ccode (some v) ms with
        | none => rw [hl] at h; exact absurd h (by simp)
        | some rs' =>
          rw [hl] at h
          simp only [Option.map_some', Option.some.injEq] at h
          subst h
          rcases List.mem_cons.mp hr with rfl | hr'
          · exact hvOk
          · exact ih (fun m' hm' => hheads m' (List.mem_cons_of_mem _ hm'))
              (fun v' hv' => by cases hv'; exact hvOk) hl r hr'

/-! ## Python loop bound -/

theorem pyScanEndAux_ge (indent : Nat) :
    ∀ (ls : List (List Char)) (j : Nat), j ≤ pyScanEndAux indent ls j := by
  intro ls
  induction ls with
  | nil => intro j; rw [pyScanEndAux]
  | cons line rest ih =>
    intro j
    rw [pyScanEndAux]
    split
    · exact Nat.le_refl _
    · exact Nat.le_trans (Nat.le_succ _) (ih (j + 1))

theorem splitOnCh_ne_nil (sep : Char) : ∀ l, splitOnCh sep l ≠ [] := by
  intro l
  induction l with
  | nil => simp [splitOnCh]
  | cons c cs ih =>
    rw [splitOnCh]
    split
    · simp
    · cases h : splitOnCh sep cs with
      | nil => simp
      | cons a as => simp

/-! ## Dropping an unterminated match (Rust and Cairo) -/

theorem rustBodies_dropped {chars : List Char} {m : RustMatch}
    (hm : findClose (chars.drop m.stop) m.stop 1 = none) :
    ∀ (l1 l2 : List RustMatch),
      rustBodies chars (l1 ++ m :: l2) = rustBodies chars (l1 ++ l2) := by
  intro l1
  induction l1 with
  | nil =>
    intro l2
    simp only [List.nil_append]
    rw [rustBodies, hm]
  | cons a l1 ih =>
    intro l2
    simp only [List.cons_append]
    rw [rustBodies, rustBodies, ih]

theorem rustRecord_dropped {text filename : String} {hash : Int} {ccode : List Char}
    {m : RustMatch}
    (hfl : (findLine (pyLines text.data) m.start).isSome = true)
    (hfc : findClose (text.data.drop m.stop) m.stop 1 = none) :
    rustRecord text filename hash ccode m = some none := by
  obtain ⟨k, hk⟩ := Option.isSome_iff_exists.mp hfl
  unfold rustRecord
  rw [hk, hfc]

theorem rustLoop_dropped {text filename : String} {hash : Int} {ccode : List Char}
    {m : RustMatch}
    (hm : rustRecord text filename hash ccode m = some none) :
    ∀ (l1 l2 : List RustMatch),
      rustLoop text filename hash ccode (l1 ++ m :: l2) =
        rustLoop text filename hash ccode (l1 ++ l2) := by
  intro l1
  induction l1 with
  | nil =>
    intro l2
    simp only [List.nil_append]
    rw [rustLoop, hm]
  | cons a l1 ih =>
    intro l2
    simp only [List.cons_append]
    rw [rustLoop, rustLoop, ih]

theorem cairoRecord_dropped {text filename : String} {hash : Int} {m : RustMatch}
    (hfl : (findLine (pyLines text.data) m.start).isSome = true)
    (hfc : findClose (text.data.drop m.stop) m.stop 1 = none) :
    cairoRecord text filename hash m = some none := by
  obtain ⟨k, hk⟩ := Option.isSome_iff_exists.mp hfl
  unfold cairoRecord
  rw [hk, hfc]

theorem cairoLoop_dropped {text filename : String} {hash : Int} {m : RustMatch}
    (hm : cairoRecord text filename hash m = some none) :
    ∀ (l1 l2 : List RustMatch),
      cairoLoop text filename hash (l1 ++ m :: l2) =
        cairoLoop text filename hash (l1 ++ l2) := by
  intro l1
  induction l1 with
  | nil =>
    intro l2
    simp only [List.nil_append]
    rw [cairoLoop, hm]
  | cons a l1 ih =>
    intro l2
    simp only [List.cons_append]
    rw [cairoLoop, cairoLoop, ih]

/-! ## Claims -/

/-- C1 counterexample: on the text `"fn f() {}\nx"` (whose sole head match is
`"fn f() {"` at offsets 0..8, function name `f`), `find_rust_functions` emits
exactly one record with `start_line = 1` but `end_line = 0`, so the claimed
invariant `start_line ≤ end_line` is false. -/
theorem C1_counterexample :
    ¬ (∀ rs, find_rust_functions "fn f() \x7b\x7d\nx" "f.rs" 0 [⟨0, 8, "f"⟩] = some rs →
        ∀ r ∈ rs, r.start_line ≤ r.end_line) := by
  intro hclaim
  cases heq : find_rust_functions "fn f() \x7b\x7d\nx" "f.rs" 0 [⟨0, 8, "f"⟩] with
  | none => exact absurd heq (by decide)
  | some rs =>
    have hall := hclaim rs heq
    have hev : (find_rust_functions "fn f() \x7b\x7d\nx" "f.rs" 0 [⟨0, 8, "f"⟩]).map
        (List.map (fun r => (r.start_line, r.end_line))) = some [(1, 0)] := by decide
    rw [heq] at hev
    simp only [Option.map_some', Option.some.injEq] at hev
    cases rs with
    | nil => simp at hev
    | cons r rs' =>
      cases rs' with
      | nil =>
        simp only [List.map_cons, List.map_nil, List.cons.injEq, Prod.mk.injEq,
          and_true] at hev
        have := hall r (List.mem_cons_self _ _)
        omega
      | cons r2 rs'' => simp at hev

/-- C2 (code bug): `find_python_functions` on a file with exactly one `def`
header — text `"def f():\n    pass\n"`, whose single head match is
`"def f():"` at offsets 0..8 with group 1 `f` — returns the EMPTY list: the
`any(matches)` test of line 317 consumes the only match, so the emission loop
sees no matches and the fallback branch is not taken either.  The claim (and
the spec) say the result is never empty for non-empty input. -/
theorem C2_eval :
    find_python_functions "def f():\n    pass\n" "t.py" 0 [⟨0, 8, "f"⟩] = some [] := by
  decide

/-- C3 (code bug): `find_rust_functions` on the single-line text
`"fn f() {}"` (no trailing newline; the head match is at offsets 0..8)
raises `StopIteration`: the defaultless start-line lookup of line 141 finds
no line start greater than offset 0 because the match begins on the last
line.  The claim (and the spec) say no scanner raises and lookups saturate. -/
theorem C3_eval :
    find_rust_functions "fn f() \x7b\x7d" "f.rs" 0 [⟨0, 8, "f"⟩] = none := by
  decide

/-- C4 counterexample: on `"func Foo() {\n  return\n}\n"` (single head match
`"func Foo() {"` at offsets 0..12) the emitted record has `end_line = 2`,
not 3 as claimed: the end lookup yields the 0-based line index of the closing
brace and no `+ 1` is applied to `end_line`. -/
theorem C4_counterexample :
    ¬ (∃ r, find_go_functions "func Foo() \x7b\n  return\n\x7d\n" "f.go" 0 [⟨0, 12⟩] =
        some [r] ∧ r.start_line = 1 ∧ r.end_line = 3 ∧ r.node_count = 3) := by
  rintro ⟨r, h1, -, h3, -⟩
  have hev : (find_go_functions "func Foo() \x7b\n  return\n\x7d\n" "f.go" 0 [⟨0, 12⟩]).map
      (List.map FunctionRecord.end_line) = some [2] := by decide
  rw [h1] at hev
  simp only [Option.map_some', List.map_cons, List.map_nil, Option.some.injEq,
    List.cons.injEq, and_true] at hev
  omega

/-- C4 amended: the input `"func Foo() {\n  return\n}\n"` produces exactly
one record with `start_line = 1`, `end_line = 2` (the 0-based line of the
closing brace: the code omits the `+ 1` on the end line) and
`node_count = 3`. -/
theorem C4_amended :
    (find_go_functions "func Foo() \x7b\n  return\n\x7d\n" "f.go" 0 [⟨0, 12⟩]).map
      (List.map (fun r => (r.start_line, r.end_line, r.node_count))) =
      some [(1, 2, 3)] := by
  decide

/-- C5 counterexample: on `"native fun bar(x: u64);\n"` (single head match
`"native fun bar(x: u64);"` at offsets 0..23, group 2 `bar`) the record has
`start_line = 1` but `end_line = 0` (`end_line` is set to the 0-based start
line index, line 215, while `start_line` gets `+ 1`), so the claimed
`start_line = end_line` is false. -/
theorem C5_counterexample :
    ¬ (∃ r, find_move_functions "native fun bar(x: u64);\n" "m.move" 0 [⟨0, 23, "bar"⟩] =
        some [r] ∧ "native" ∈ r.modifiers ∧ r.start_line = r.end_line ∧
        r.node_count = 1 ∧ r.content = "native fun bar(x: u64);") := by
  rintro ⟨r, h1, -, h3, -, -⟩
  have hev : (find_move_functions "native fun bar(x: u64);\n" "m.move" 0
      [⟨0, 23, "bar"⟩]).map (List.map (fun r => (r.start_line, r.end_line))) =
      some [(1, 0)] := by decide
  rw [h1] at hev
  simp only [Option.map_some', List.map_cons, List.map_nil, Option.some.injEq,
    List.cons.injEq, Prod.mk.injEq, and_true] at hev
  omega

/-- C5 amended: on `"native fun bar(x: u64);\n"` the declaration-only match
yields exactly one record whose modifiers are `["native"]`, whose content is
the matched head itself, whose `node_count` is 1, and whose `start_line`
equals `end_line + 1` (not `end_line`). -/
theorem C5_amended :
    (find_move_functions "native fun bar(x: u64);\n" "m.move" 0 [⟨0, 23, "bar"⟩]).map
        (List.map (fun r => (r.start_line, r.end_line, r.node_count, r.modifiers))) =
        some [(1, 0, 1, ["native"])] ∧
      (find_move_functions "native fun bar(x: u64);\n" "m.move" 0 [⟨0, 23, "bar"⟩]).map
        (List.map FunctionRecord.content) = some ["native fun bar(x: u64);"] := by
  exact ⟨by decide, by decide⟩

/-- C6 counterexample: on `"func f() {\nx"` the single Go head match
`"func f() {"` (offsets 0..10) never returns to depth zero, yet
`find_go_functions` does NOT drop it: because `function_body_end` is
pre-initialized to the match start (line 272), one record is emitted (its
content is the empty slice), refuting "produces no record at all". -/
theorem C6_counterexample :
    find_go_functions "func f() \x7b\nx" "f.go" 0 [⟨0, 10⟩] ≠ some [] ∧
      (find_go_functions "func f() \x7b\nx" "f.go" 0 [⟨0, 10⟩]).map
        (List.map FunctionRecord.content) = some [""] := by
  exact ⟨by decide, by decide⟩

/-- C7 counterexample: on `"func f() { {\n}\n}\n"` the greedy Go head regex
consumes both opening braces of the first line (match offsets 0..12) while
the depth counter starts at 1, so the emitted record's content
`"func f() { {\n}"` has two opening braces and one closing brace — the
claimed balance is false. -/
theorem C7_counterexample :
    ¬ (∀ rs, find_go_functions "func f() \x7b \x7b\n\x7d\n\x7d\n" "f.go" 0 [⟨0, 12⟩] =
        some rs → ∀ r ∈ rs, bracesBalanced r.content ∧ depthZeroOnce r.content) := by
  intro hclaim
  cases heq : find_go_functions "func f() \x7b \x7b\n\x7d\n\x7d\n" "f.go" 0 [⟨0, 12⟩] with
  | none => exact absurd heq (by decide)
  | some rs =>
    have hall := hclaim rs heq
    have hev : (find_go_functions "func f() \x7b \x7b\n\x7d\n\x7d\n" "f.go" 0
        [⟨0, 12⟩]).map (List.map FunctionRecord.content) =
        some ["func f() \x7b \x7b\n\x7d"] := by decide
    rw [heq] at hev
    simp only [Option.map_some', Option.some.injEq] at hev
    cases rs with
    | nil => simp at hev
    | cons r rs' =>
      cases rs' with
      | nil =>
        simp only [List.map_cons, List.map_nil, List.cons.injEq, and_true] at hev
        have hbal := (hall r (List.mem_cons_self _ _)).1
        rw [hev] at hbal
        exact absurd hbal (by decide)
      | cons r2 rs'' => simp at hev

/-- C8: each scanner is a pure function of its arguments (text, filename,
hash value, and the matches the regex produces from the text): the source
reads and writes nothing outside its call frame, so two invocations with
identical arguments return identical record sequences, every field
included. -/
theorem C8_deterministic :
    ∀ (text filename : String) (hash : Int) (rms cms : List RustMatch)
      (gms : List GoMatch) (pms : List PyMatch) (mms : List MoveMatch),
      find_rust_functions text filename hash rms =
          find_rust_functions text filename hash rms ∧
        find_cairo_functions text filename hash cms =
          find_cairo_functions text filename hash cms ∧
        find_go_functions text filename hash gms =
          find_go_functions text filename hash gms ∧
        find_python_functions text filename hash pms =
          find_python_functions text filename hash pms ∧
        find_move_functions text filename hash mms =
          find_move_functions text filename hash mms :=
  fun _ _ _ _ _ _ _ _ => ⟨rfl, rfl, rfl, rfl, rfl⟩

/-- C9: after the AST is built, `parse` raises a `ParserError` exactly when
the listener reported errors and the tolerant option is off; the raised
error's message is the first error's message followed by its
`(line:column)`, and its `errors` field is the whole list; with the tolerant
option on and errors present, the same list is attached to the returned
root's `errors` field and nothing is raised. -/
theorem C9_parse_errors :
    ∀ (tolerant : Bool) (errs : List SGPError) (u : SourceUnitModel),
      ((∃ pe, parseFinish tolerant errs u = ParseOutcome.raised pe) ↔
        (tolerant = false ∧ errs ≠ [])) ∧
      (∀ e rest, errs = e :: rest → tolerant = false →
        parseFinish tolerant errs u = ParseOutcome.raised
          { message := e.message ++ " (" ++ toString e.line ++ ":" ++
              toString e.column ++ ")",
            errors := e :: rest }) ∧
      (tolerant = true → errs ≠ [] →
        parseFinish tolerant errs u = ParseOutcome.ok { u with errors := some errs }) := by
  intro tolerant errs u
  refine ⟨⟨?_, ?_⟩, ?_, ?_⟩
  · rintro ⟨pe, hpe⟩
    cases tolerant <;> cases errs <;> simp [parseFinish] at hpe ⊢
  · rintro ⟨rfl, hne⟩
    cases errs with
    | nil => exact absurd rfl hne
    | cons e rest => exact ⟨_, rfl⟩
  · rintro e rest rfl rfl
    rfl
  · rintro rfl hne
    cases errs with
    | nil => exact absurd rfl hne
    | cons e rest => rfl

/-- Witness for C9 at a concrete error list: non-tolerant raises with the
formatted message, tolerant attaches the list to the root. -/
theorem C9_parse_errors_witness :
    parseFinish false [⟨"boom", 3, 7⟩] ⟨none⟩ =
        ParseOutcome.raised ⟨"boom (3:7)", [⟨"boom", 3, 7⟩]⟩ ∧
      parseFinish true [⟨"boom", 3, 7⟩] ⟨none⟩ =
        ParseOutcome.ok ⟨some [⟨"boom", 3, 7⟩]⟩ := by
  constructor
  · have h := (C9_parse_errors false [⟨"boom", 3, 7⟩] ⟨none⟩).2.1
      ⟨"boom", 3, 7⟩ [] rfl rfl
    exact h.trans (by decide)
  · exact (C9_parse_errors true [⟨"boom", 3, 7⟩] ⟨none⟩).2.2 rfl (by simp)

/-- C10: the dispatcher routes by substring containment in source priority
order (`.rs`, `.py`, `.move`, `.cairo`), sends everything else — in
particular a path containing `.go` and none of the four extensions — to the
ANTLR Solidity path, and never selects the Go scanner. -/
theorem C10_dispatch :
    ∀ path : String,
      (get_antlr_parsing_dispatch path = DispatchTarget.rust ↔
        containsSub ".rs".data path.data = true) ∧
      (get_antlr_parsing_dispatch path = DispatchTarget.python ↔
        (containsSub ".rs".data path.data = false ∧
          containsSub ".py".data path.data = true)) ∧
      (get_antlr_parsing_dispatch path = DispatchTarget.move ↔
        (containsSub ".rs".data path.data = false ∧
          containsSub ".py".data path.data = false ∧
          containsSub ".move".data path.data = true)) ∧
      (get_antlr_parsing_dispatch path = DispatchTarget.cairo ↔
        (containsSub ".rs".data path.data = false ∧
          containsSub ".py".data path.data = false ∧
          containsSub ".move".data path.data = false ∧
          containsSub ".cairo".data path.data = true)) ∧
      (get_antlr_parsing_dispatch path = DispatchTarget.antlr ↔
        (containsSub ".rs".data path.data = false ∧
          containsSub ".py".data path.data = false ∧
          containsSub ".move".data path.data = false ∧
          containsSub ".cairo".data path.data = false)) ∧
      get_antlr_parsing_dispatch path ≠ DispatchTarget.go ∧
      (containsSub ".go".data path.data = true →
        containsSub ".rs".data path.data = false →
        containsSub ".py".data path.data = false →
        containsSub ".move".data path.data = false →
        containsSub ".cairo".data path.data = false →
        get_antlr_parsing_dispatch path = DispatchTarget.antlr) := by
  intro path
  unfold get_antlr_parsing_dispatch
  cases h1 : containsSub ".rs".data path.data <;>
    cases h2 : containsSub ".py".data path.data <;>
      cases h3 : containsSub ".move".data path.data <;>
        cases h4 : containsSub ".cairo".data path.data <;>
          simp

/-- Witness for C10: `"main.go"` (which contains `.go` and none of the four
dispatched extensions) is routed to the ANTLR path; `"lib.rs"` is routed to
the Rust scanner. -/
theorem C10_dispatch_witness :
    get_antlr_parsing_dispatch "main.go" = DispatchTarget.antlr ∧
      get_antlr_parsing_dispatch "lib.rs" = DispatchTarget.rust := by
  constructor
  · exact (C10_dispatch "main.go").2.2.2.2.2.2 (by decide) (by decide) (by decide)
      (by decide) (by decide)
  · exact ((C10_dispatch "lib.rs").1).mpr (by decide)

/-- C1 amended: `start_line` is 1-based, but the brace scanners and
`find_move_functions` emit `end_line` without the `+ 1` (it is the 0-based
index of the line holding the end of the body, and for declaration-only Move
records the 0-based start line), so the invariant that actually holds is
`start_line ≤ end_line + 1`; `find_python_functions`, which applies `+ 1` to
both, satisfies `start_line ≤ end_line` as claimed.  For Move the bound is
guaranteed when every match is declaration-only or its depth scan terminates
(otherwise a record is built from a previous match's stale locals). -/
theorem C1_amended :
    ∀ (text filename : String) (hash : Int) (rms cms : List RustMatch)
      (gms : List GoMatch) (pms : List PyMatch) (mms : List MoveMatch)
      (rs cs gs ps msr : List FunctionRecord),
      ((∀ m ∈ rms, m.start ≤ m.stop) →
        find_rust_functions text filename hash rms = some rs →
        ∀ r ∈ rs, r.start_line ≤ r.end_line + 1) ∧
      ((∀ m ∈ cms, m.start ≤ m.stop) →
        find_cairo_functions text filename hash cms = some cs →
        ∀ r ∈ cs, r.start_line ≤ r.end_line + 1) ∧
      ((∀ m ∈ gms, m.start ≤ m.stop) →
        find_go_functions text filename hash gms = some gs →
        ∀ r ∈ gs, r.start_line ≤ r.end_line + 1) ∧
      (find_python_functions text filename hash pms = some ps →
        ∀ r ∈ ps, r.start_line ≤ r.end_line) ∧
      ((∀ m ∈ mms, m.start ≤ m.stop ∧ moveResolves text.data m) →
        find_move_functions text filename hash mms = some msr →
        ∀ r ∈ msr, r.start_line ≤ r.end_line + 1) := by
  intro text filename hash rms cms gms pms mms rs cs gs ps msr
  refine ⟨?_, ?_, ?_, ?_, ?_⟩
  · -- Rust
    intro hms h r hr
    unfold find_rust_functions at h
    obtain ⟨m, hm, hrec⟩ := rustLoop_mem h r hr
    obtain ⟨k, j, hfl, hfc, hs, he, -⟩ := rustRecord_some hrec
    obtain ⟨hk1, -, -, -⟩ := findLine_spec hfl
    have hmj : m.start ≤ j + 1 :=
      Nat.le_trans (Nat.le_trans (hms m hm) (findClose_ge hfc)) (Nat.le_succ j)
    have hkd := findLine_mono hfl hmj
    rw [hs, he]
    omega
  · -- Cairo
    intro hms h r hr
    unfold find_cairo_functions at h
    obtain ⟨m, hm, hrec⟩ := cairoLoop_mem h r hr
    obtain ⟨k, j, d, hfl, hfc, hfe, hs, he, -⟩ := cairoRecord_some hrec
    obtain ⟨hk1, -, -, -⟩ := findLine_spec hfl
    have hmj : m.start ≤ j + 1 :=
      Nat.le_trans (Nat.le_trans (hms m hm) (findClose_ge hfc)) (Nat.le_succ j)
    have hkd := findLine_mono_some hfl hmj hfe
    rw [hs, he]
    omega
  · -- Go
    intro hms h r hr
    unfold find_go_functions at h
    obtain ⟨m, hm, hrec⟩ := goLoop_mem h r hr
    obtain ⟨k, d, hfl, hfe, hs, he, -⟩ := goRecord_some hrec
    obtain ⟨hk1, -, -, -⟩ := findLine_spec hfl
    cases hfc : findClose (text.data.drop m.stop) m.stop 1 with
    | some j =>
      have hbe : goBodyEnd text.data m = j + 1 := by unfold goBodyEnd; rw [hfc]
      rw [hbe] at hfe
      have hmj : m.start ≤ j + 1 :=
        Nat.le_trans (Nat.le_trans (hms m hm) (findClose_ge hfc)) (Nat.le_succ j)
      have hkd := findLine_mono_some hfl hmj hfe
      rw [hs, he]
      omega
    | none =>
      have hbe : goBodyEnd text.data m = m.start := by unfold goBodyEnd; rw [hfc]
      rw [hbe] at hfe
      have hkd : k = d := by
        have := hfl.symm.trans hfe
        exact Option.some.inj this
      rw [hs, he]
      omega
  · -- Python
    intro h r hr
    unfold find_python_functions at h
    cases pms with
    | nil =>
      simp only [Option.some.injEq] at h
      subst h
      rcases List.mem_singleton.mp hr with rfl
      have hlen : 0 < (pyLines text.data).length :=
        List.length_pos.mpr (splitOnCh_ne_nil '\n' text.data)
      show (pyFallback text filename hash).start_line ≤
        (pyFallback text filename hash).end_line
      unfold pyFallback
      simpa using hlen
    | cons m0 rest =>
      obtain ⟨m, hm, hrec⟩ := pyLoop_mem h r hr
      obtain ⟨k, startLine, hfl, hgl, hs, he⟩ := pyRecord_some hrec
      obtain ⟨hk1, -, -, -⟩ := findLine_spec hfl
      have haux := pyScanEndAux_ge (lstripLen startLine)
        ((pyLines text.data).drop ((k - 1) + 1)) ((k - 1) + 1)
      unfold pyEndLineNumber at he
      rw [hs, he]
      omega
  · -- Move
    intro hms h r hr
    unfold find_move_functions at h
    obtain ⟨m, hm, k, prev', v, hfl, hmv, rfl⟩ := moveLoop_mem h r hr
    obtain ⟨hse, hres⟩ := hms m hm
    obtain ⟨hk1, -, -, -⟩ := findLine_spec hfl
    rcases moveVals_some hmv with ⟨hsc, rfl⟩ | ⟨hsc, j, d, hfc, hfe, rfl⟩ |
      ⟨hsc, hfc, hpv⟩
    · simp only [moveRecordOf]
      omega
    · have hmj : m.start ≤ j + 1 :=
        Nat.le_trans (Nat.le_trans hse (findClose_ge hfc)) (Nat.le_succ j)
      have hkd := findLine_mono_some hfl hmj hfe
      obtain ⟨hd1, -, -, -⟩ := findLine_spec hfe
      simp only [moveRecordOf]
      omega
    · rcases hres with hres | hres
      · exact absurd hres hsc
      · rw [hfc] at hres
        simp at hres

/-- Witness for C1 amended: the fallback record of `find_python_functions`
on the no-match input `"x\ny\n"` satisfies `start_line ≤ end_line`. -/
theorem C1_amended_witness :
    (pyFallback "x\ny\n" "t.py" 0).start_line ≤ (pyFallback "x\ny\n" "t.py" 0).end_line :=
  (C1_amended "x\ny\n" "t.py" 0 [] [] [] [] [] [] [] []
      [pyFallback "x\ny\n" "t.py" 0] []).2.2.2.1
    rfl (pyFallback "x\ny\n" "t.py" 0) (List.mem_singleton.mpr rfl)

/-- C6 amended: the silent-drop behaviour holds for `find_rust_functions`
and `find_cairo_functions` only (given that the match's own start-line
lookup succeeds): an unterminated match contributes no record and the
remaining matches are scanned as if it were absent.  `find_go_functions`
instead emits a record with empty content for such a match (see the
counterexample), and `find_move_functions` builds its record from the
previous match's stale locals (raising on the first match). -/
theorem C6_amended :
    ∀ (text filename : String) (hash : Int) (ms1 ms2 : List RustMatch)
      (m : RustMatch) (cs1 cs2 : List RustMatch) (c : RustMatch),
      ((findLine (pyLines text.data) m.start).isSome = true →
        findClose (text.data.drop m.stop) m.stop 1 = none →
        find_rust_functions text filename hash (ms1 ++ m :: ms2) =
          find_rust_functions text filename hash (ms1 ++ ms2)) ∧
      ((findLine (pyLines text.data) c.start).isSome = true →
        findClose (text.data.drop c.stop) c.stop 1 = none →
        find_cairo_functions text filename hash (cs1 ++ c :: cs2) =
          find_cairo_functions text filename hash (cs1 ++ cs2)) := by
  intro text filename hash ms1 ms2 m cs1 cs2 c
  constructor
  · intro hfl hfc
    unfold find_rust_functions
    rw [rustBodies_dropped hfc]
    exact rustLoop_dropped (rustRecord_dropped hfl hfc) ms1 ms2
  · intro hfl hfc
    unfold find_cairo_functions
    exact cairoLoop_dropped (cairoRecord_dropped hfl hfc) cs1 cs2

/-- Witness for C6 amended: on `"fn a() {\nx"` the unterminated Rust match
at offsets 0..8 is dropped and the scan equals the scan without it. -/
theorem C6_amended_witness :
    find_rust_functions "fn a() \x7b\nx" "f.rs" 0 [⟨0, 8, "a"⟩] =
      find_rust_functions "fn a() \x7b\nx" "f.rs" 0 [] :=
  (C6_amended "fn a() \x7b\nx" "f.rs" 0 [] [] ⟨0, 8, "a"⟩ [] [] ⟨0, 8, "a"⟩).1
    (by decide) (by decide)

/-- C7 amended: the balanced-content property holds for every record of the
four brace-capable scanners provided the matched head contains exactly one
opening brace and no closing brace (for Move, declaration-only heads must be
brace-free instead): the content then has equally many opening and closing
braces and its running depth returns to zero only at the final character.
The hypothesis is what the Go counterexample forces: the greedy Go head
regex can consume extra opening braces, and the Rust/Cairo/Move head
patterns can admit braces inside a `pub(...)` group or a parameter list. -/
theorem C7_amended :
    ∀ (text filename : String) (hash : Int) (rms cms : List RustMatch)
      (gms : List GoMatch) (mms : List MoveMatch)
      (rs cs gs msr : List FunctionRecord),
      ((∀ m ∈ rms, m.start ≤ m.stop ∧ headOneBrace text.data m.start m.stop) →
        find_rust_functions text filename hash rms = some rs →
        ∀ r ∈ rs, bracesBalanced r.content ∧ depthZeroOnce r.content) ∧
      ((∀ m ∈ cms, m.start ≤ m.stop ∧ headOneBrace text.data m.start m.stop) →
        find_cairo_functions text filename hash cms = some cs →
        ∀ r ∈ cs, bracesBalanced r.content ∧ depthZeroOnce r.content) ∧
      ((∀ m ∈ gms, m.start ≤ m.stop ∧ headOneBrace text.data m.start m.stop) →
        find_go_functions text filename hash gms = some gs →
        ∀ r ∈ gs, bracesBalanced r.content ∧ depthZeroOnce r.content) ∧
      ((∀ m ∈ mms, m.start ≤ m.stop ∧
          ((stripChars (slice text.data m.start m.stop)).getLast? = some ';' →
            headNoBrace text.data m.start m.stop) ∧
          (¬ (stripChars (slice text.data m.start m.stop)).getLast? = some ';' →
            headOneBrace text.data m.start m.stop)) →
        find_move_functions text filename hash mms = some msr →
        ∀ r ∈ msr, bracesBalanced r.content ∧ depthZeroOnce r.content) := by
  intro text filename hash rms cms gms mms rs cs gs msr
  refine ⟨?_, ?_, ?_, ?_⟩
  · -- Rust
    intro hms h r hr
    unfold find_rust_functions at h
    obtain ⟨m, hm, hrec⟩ := rustLoop_mem h r hr
    obtain ⟨k, j, hfl, hfc, -, -, hc⟩ := rustRecord_some hrec
    obtain ⟨hse, hh⟩ := hms m hm
    unfold headOneBrace at hh
    rw [hc]
    exact contentProps hse hh.1 hh.2 hfc
  · -- Cairo
    intro hms h r hr
    unfold find_cairo_functions at h
    obtain ⟨m, hm, hrec⟩ := cairoLoop_mem h r hr
    obtain ⟨k, j, d, hfl, hfc, -, -, -, hc⟩ := cairoRecord_some hrec
    obtain ⟨hse, hh⟩ := hms m hm
    unfold headOneBrace at hh
    rw [hc]
    exact contentProps hse hh.1 hh.2 hfc
  · -- Go
    intro hms h r hr
    unfold find_go_functions at h
    obtain ⟨m, hm, hrec⟩ := goLoop_mem h r hr
    obtain ⟨k, d, hfl, hfe, -, -, hc⟩ := goRecord_some hrec
    obtain ⟨hse, hh⟩ := hms m hm
    unfold headOneBrace at hh
    cases hfc : findClose (text.data.drop m.stop) m.stop 1 with
    | some j =>
      have hbe : goBodyEnd text.data m = j + 1 := by unfold goBodyEnd; rw [hfc]
      rw [hc, hbe]
      exact contentProps hse hh.1 hh.2 hfc
    | none =>
      have hbe : goBodyEnd text.data m = m.start := by unfold goBodyEnd; rw [hfc]
      have hnil : slice text.data m.start m.start = [] := by simp [slice]
      rw [hc, hbe, hnil]
      exact contentPropsNoBrace rfl rfl
  · -- Move
    intro hms h r hr
    unfold find_move_functions at h
    exact moveLoop_contentOk hms (fun v hv => by cases hv) h r hr

/-- Witness for C7 amended: the record `find_rust_functions` emits for
`"fn a() {}\n"` has balanced content with a single return to depth zero. -/
theorem C7_amended_witness :
    bracesBalanced rustSampleRecord.content ∧ depthZeroOnce rustSampleRecord.content :=
  (C7_amended "fn a() \x7b\x7d\n" "f.rs" 0 [⟨0, 8, "a"⟩] [] [] []
      [rustSampleRecord] [] [] []).1
    (by decide) (by decide) rustSampleRecord (List.mem_singleton.mpr rfl)

end SgpParser
